import Mathlib

/-!
# Verification of the Colliers/Northmarq RSS feed builder

A shallow embedding of `src/build_colliers_rss.py` and proofs about it.

Conventions of the embedding:

* Python `datetime` values produced by this program are always timezone-aware
  UTC timestamps at midnight, so they are modelled by a `(year, month, day)`
  triple with lexicographic comparison (Python compares same-zone datetimes
  field-lexicographically).
* Python dicts keyed by URL are modelled as insertion-ordered lists of
  records whose `url` field is the key; `list(d.values())` is the list itself.
* The `urllib.parse` collaborator (`urljoin`, `urlparse`, `geturl`) is
  modelled character-faithfully after CPython's `urllib/parse.py`
  (`urlsplit`, `_splitparams`, `urlunsplit`, `urljoin`), for inputs that do
  not contain the control characters CPython strips (`\t`, `\r`, `\n`,
  leading/trailing C0 controls) nor bracketed IPv6 hosts.
* Regular expressions from the source are implemented as executable matchers
  over `List Char`, with Python's `\s`, `\b`, `\w` read as their ASCII
  subsets (no input used here contains non-ASCII word/space characters).
* `BeautifulSoup` trees are collaborators: a scanner receives the per-anchor
  data the soup would deliver (tag name, `href`, flattened text, and the
  card-derived date/description for Colliers), and the card locator receives
  the anchor's ancestor chain of flattened texts.
-/

/-- A UTC midnight timestamp `datetime(year, month, day, tzinfo=UTC)`. -/
structure DateTime where
  year : Nat
  month : Nat
  day : Nat
deriving DecidableEq, Repr

/-- Python `datetime.__le__` restricted to UTC midnights: lexicographic. -/
def DateTime.ble (a b : DateTime) : Bool :=
  decide (a.year < b.year ∨ (a.year = b.year ∧
    (a.month < b.month ∨ (a.month = b.month ∧ a.day ≤ b.day))))

/-- Python `datetime.__lt__` restricted to UTC midnights: lexicographic. -/
def DateTime.blt (a b : DateTime) : Bool :=
  DateTime.ble a b && !(DateTime.ble b a)

/-- `EPOCH = datetime(1970, 1, 1, tzinfo=UTC)` (line 14 of the source). -/
def EPOCH : DateTime := ⟨1970, 1, 1⟩

/-- One entry of a scanner's `by_url` map / of the final item lists:
the dict `{"url": ..., "title": ..., "description": ..., "published": ...,
"source": ...}` built by the scanners. -/
structure Item where
  url : String
  title : String
  description : String
  published : Option DateTime
  source : String
deriving DecidableEq, Repr

/-- The sort key `lambda x: x.get("published") or EPOCH` (datetimes are
always truthy in Python, so `or EPOCH` fires exactly when `published` is
`None`). -/
def itemKey (r : Item) : DateTime := r.published.getD EPOCH

/-- Stable descending insertion: `x` is placed immediately before the first
element whose key is strictly smaller, hence after every earlier element
with an equal key. -/
def insertItem (x : Item) : List Item → List Item
  | [] => [x]
  | y :: ys =>
    if DateTime.blt (itemKey y) (itemKey x) = true then x :: y :: ys
    else y :: insertItem x ys

/-- `items.sort(key=lambda x: x.get("published") or EPOCH, reverse=True)`:
Python's stable sort, descending by key.  A stable sort with respect to a
total preorder is unique, so this structural stable insertion sort produces
exactly CPython Timsort's output. -/
def sortItems (l : List Item) : List Item :=
  l.foldl (fun acc x => insertItem x acc) []

/-! ## The `urllib.parse` collaborator -/

/-- CPython `scheme_chars`: ASCII letters, digits, `+`, `-`, `.`. -/
def isSchemeChar (c : Char) : Bool :=
  c.isAlpha || c.isDigit || c = '+' || c = '-' || c = '.'

/-- The ASCII upper-to-lower case table. -/
def upperLower : List (Char × Char) :=
  [('A', 'a'), ('B', 'b'), ('C', 'c'), ('D', 'd'), ('E', 'e'), ('F', 'f'),
   ('G', 'g'), ('H', 'h'), ('I', 'i'), ('J', 'j'), ('K', 'k'), ('L', 'l'),
   ('M', 'm'), ('N', 'n'), ('O', 'o'), ('P', 'p'), ('Q', 'q'), ('R', 'r'),
   ('S', 's'), ('T', 't'), ('U', 'u'), ('V', 'v'), ('W', 'w'), ('X', 'x'),
   ('Y', 'y'), ('Z', 'z')]

/-- ASCII lowercasing, as `str.lower()` acts on scheme characters (which are
all ASCII by construction).  Spelt out as a table lookup so that facts about
it follow from `find?` lemmas plus `decide` over the table. -/
def asciiLower (c : Char) : Char :=
  match upperLower.find? (fun p => p.1 = c) with
  | some p => p.2
  | none => c

/-- A character that may appear in a netloc: `_splitnetloc` stops at the
first of `/`, `?`, `#`. -/
def isNetlocChar (c : Char) : Bool :=
  !(c = '/' || c = '?' || c = '#')

/-- The five components returned by CPython `urlsplit`. -/
structure SplitResult where
  scheme : List Char
  netloc : List Char
  path : List Char
  query : List Char
  fragment : List Char
deriving DecidableEq, Repr

/-- Scheme extraction inside `urlsplit`: take the part before the first `:`;
it is a scheme iff it is nonempty, starts with an ASCII letter and consists
of scheme characters only.  Returns (lowercased scheme, rest). -/
def extractScheme (l : List Char) : List Char × List Char :=
  let pre := l.takeWhile (· ≠ ':')
  if pre.length < l.length ∧ pre ≠ [] ∧ (pre.headD ' ').isAlpha ∧
      pre.all isSchemeChar then
    (pre.map asciiLower, l.drop (pre.length + 1))
  else ([], l)

/-- CPython `urlsplit(url, scheme=default)`.  Splits into
scheme/netloc/path/query/fragment; the fragment is split off (at the first
`#`) before the query (at the first `?`). -/
def urlsplitD (l : List Char) (defaultScheme : List Char) : SplitResult :=
  let sch0 := (extractScheme l).1
  let rest0 := (extractScheme l).2
  let sch := if sch0 = [] then defaultScheme else sch0
  let netloc :=
    if rest0.take 2 = ['/', '/'] then (rest0.drop 2).takeWhile isNetlocChar
    else []
  let rest1 :=
    if rest0.take 2 = ['/', '/'] then (rest0.drop 2).dropWhile isNetlocChar
    else rest0
  let fragment := (rest1.dropWhile (· ≠ '#')).drop 1
  let rest2 := rest1.takeWhile (· ≠ '#')
  let query := (rest2.dropWhile (· ≠ '?')).drop 1
  let path := rest2.takeWhile (· ≠ '?')
  ⟨sch, netloc, path, query, fragment⟩

/-- `urlsplit` with the default empty scheme. -/
def urlsplit (l : List Char) : SplitResult := urlsplitD l []

/-- CPython `uses_params` (schemes for which `urlparse` splits params). -/
def uses_params : List (List Char) :=
  ["", "ftp", "hdl", "prospero", "http", "imap", "https", "shttp", "rtsp",
   "rtspu", "sip", "sips", "mms", "sftp", "tel"].map String.data

/-- CPython `uses_relative`. -/
def uses_relative : List (List Char) :=
  ["", "ftp", "http", "gopher", "nntp", "imap", "wais", "file", "https",
   "shttp", "mms", "prospero", "rtsp", "rtspu", "sftp", "svn", "svn+ssh",
   "ws", "wss"].map String.data

/-- CPython `uses_netloc`. -/
def uses_netloc : List (List Char) :=
  ["", "ftp", "http", "gopher", "nntp", "telnet", "imap", "wais", "file",
   "mms", "https", "shttp", "snews", "prospero", "rtsp", "rtspu", "rsync",
   "svn", "svn+ssh", "sftp", "nfs", "git", "git+ssh", "ws", "wss",
   "itms-services"].map String.data

/-- CPython 3.11 `urlunsplit` (`//` is re-added whenever the scheme uses a
netloc, even an empty one, unless the path already starts with `//`). -/
def urlunsplit (r : SplitResult) : List Char :=
  let url := r.path
  let url :=
    if r.netloc ≠ [] ∨
        (r.scheme ≠ [] ∧ uses_netloc.contains r.scheme ∧ url.take 2 ≠ ['/', '/'])
    then
      ['/', '/'] ++ r.netloc ++
        (if url ≠ [] ∧ url.take 1 ≠ ['/'] then '/' :: url else url)
    else url
  let url := if r.scheme ≠ [] then r.scheme ++ ':' :: url else url
  let url := if r.query ≠ [] then url ++ '?' :: r.query else url
  if r.fragment ≠ [] then url ++ '#' :: r.fragment else url

/-- The six components returned by CPython `urlparse`. -/
structure ParseResult where
  scheme : List Char
  netloc : List Char
  path : List Char
  params : List Char
  query : List Char
  fragment : List Char
deriving DecidableEq, Repr

/-- CPython `_splitparams`: split `;params` off the *last* path segment. -/
def splitparams (p : List Char) : List Char × List Char :=
  if p.contains '/' then
    let afterSlash := (p.reverse.takeWhile (· ≠ '/')).reverse
    if afterSlash.contains ';' then
      (p.take (p.length - afterSlash.length) ++ afterSlash.takeWhile (· ≠ ';'),
       (afterSlash.dropWhile (· ≠ ';')).drop 1)
    else (p, [])
  else if p.contains ';' then
    (p.takeWhile (· ≠ ';'), (p.dropWhile (· ≠ ';')).drop 1)
  else (p, [])

/-- CPython `urlparse(url, scheme=default)`. -/
def urlparseD (l : List Char) (defaultScheme : List Char) : ParseResult :=
  let r := urlsplitD l defaultScheme
  if uses_params.contains r.scheme ∧ r.path.contains ';' then
    ⟨r.scheme, r.netloc, (splitparams r.path).1, (splitparams r.path).2,
     r.query, r.fragment⟩
  else ⟨r.scheme, r.netloc, r.path, [], r.query, r.fragment⟩

/-- `urlparse` with the default empty scheme. -/
def urlparse (l : List Char) : ParseResult := urlparseD l []

/-- CPython `urlunparse`. -/
def urlunparse (r : ParseResult) : List Char :=
  let p := if r.params ≠ [] then r.path ++ ';' :: r.params else r.path
  urlunsplit ⟨r.scheme, r.netloc, p, r.query, r.fragment⟩

/-- Python `str.split(sep)` for a single-character separator. -/
def splitAll (sep : Char) : List Char → List (List Char)
  | [] => [[]]
  | c :: rest =>
    match splitAll sep rest with
    | [] => [[]]
    | h :: t => if c = sep then [] :: h :: t else (c :: h) :: t

/-- The slice assignment `segments[1:-1] = filter(None, segments[1:-1])`. -/
def filterMiddle (s : List (List Char)) : List (List Char) :=
  match s with
  | [] => []
  | [x] => [x]
  | h :: t => h :: (t.dropLast.filter (· ≠ [])) ++ [t.getLastD []]

/-- The dot-segment resolution loop of `urljoin` (`..` pops, `.` is
skipped, `pop` on an empty list is a no-op). -/
def resolveSegs (segs : List (List Char)) : List (List Char) :=
  segs.foldl
    (fun acc seg =>
      if seg = ['.', '.'] then acc.dropLast
      else if seg = ['.'] then acc
      else acc ++ [seg]) []

/-- CPython `urljoin(base, url)` (with `allow_fragments=True`). -/
def urljoin (base url : List Char) : List Char :=
  if base = [] then url
  else if url = [] then base
  else
    let b := urlparseD base []
    let u := urlparseD url b.scheme
    if u.scheme ≠ b.scheme ∨ ¬ uses_relative.contains u.scheme then url
    else if uses_netloc.contains u.scheme ∧ u.netloc ≠ [] then
      urlunparse ⟨u.scheme, u.netloc, u.path, u.params, u.query, u.fragment⟩
    else
      let netloc := if uses_netloc.contains u.scheme then b.netloc else u.netloc
      if u.path = [] ∧ u.params = [] then
        let query := if u.query = [] then b.query else u.query
        urlunparse ⟨u.scheme, netloc, b.path, b.params, query, u.fragment⟩
      else
        let base_parts := splitAll '/' b.path
        let base_parts :=
          if base_parts.getLast? ≠ some [] then base_parts.dropLast
          else base_parts
        let segments :=
          if u.path.take 1 = ['/'] then splitAll '/' u.path
          else filterMiddle (base_parts ++ splitAll '/' u.path)
        let resolved := resolveSegs segments
        let resolved :=
          if segments.getLast? = some ['.'] ∨ segments.getLast? = some ['.', '.']
          then resolved ++ [[]] else resolved
        let joined := List.intercalate ['/'] resolved
        let path := if joined = [] then ['/'] else joined
        urlunparse ⟨u.scheme, netloc, path, u.params, u.query, u.fragment⟩

/-- Python `str.rstrip("/")`: remove *all* trailing `/` characters. -/
def rstripSlash (l : List Char) : List Char :=
  (l.reverse.dropWhile (· = '/')).reverse

/--
```python
def normalize_url(base: str, href: str) -> str:
    u = urljoin(base, href)
    p = urlparse(u)
    return p._replace(query="", fragment="").geturl().rstrip("/")
```
-/
def normalize_url (base href : String) : String :=
  let u := urljoin base.data href.data
  let p := urlparse u
  let cleaned := urlunparse ⟨p.scheme, p.netloc, p.path, p.params, [], []⟩
  String.mk (rstripSlash cleaned)

/-- Modelled from the spec: the variant of `normalize_url` the spec's §4.1
describes, which strips *exactly one* trailing slash instead of all of
them.  Used only to compare against the implementation. -/
def spec_normalize_url_one_slash (base href : String) : String :=
  let u := urljoin base.data href.data
  let p := urlparse u
  let cleaned := urlunparse ⟨p.scheme, p.netloc, p.path, p.params, [], []⟩
  String.mk (if cleaned.getLast? = some '/' then cleaned.dropLast else cleaned)

/-! ## Colliers -/

/-- `COLLIERS_SKIP_TEXT` (line 40). -/
def COLLIERS_SKIP_TEXT : List String :=
  ["read more", "view more", "view all news", "view all", "view podcasts",
   "view media mentions", "learn more"]

/-- Python `\s` (ASCII subset, as in all text handled here). -/
def isPySpace (c : Char) : Bool :=
  c = ' ' || c = '\t' || c = '\n' || c = '\x0d' || c = '\x0b' || c = '\x0c'

/-- Python `\w` (ASCII subset). -/
def isWordChar (c : Char) : Bool := c.isAlphanum || c = '_'

/-- Python `str.strip()` (ASCII whitespace model). -/
def pyStrip (s : String) : String :=
  String.mk (((s.data.dropWhile isPySpace).reverse.dropWhile isPySpace).reverse)

/-- Python `str.lower()` (ASCII model, as used on the skip-list phrases). -/
def pyLower (s : String) : String := String.mk (s.data.map asciiLower)

/-- The three-letter month abbreviations of `COLLIERS_DATE_RE`. -/
def monthAbbrevs : List (List Char) :=
  ["Jan", "Feb", "Mar", "Apr", "May", "Jun", "Jul", "Aug", "Sep", "Oct",
   "Nov", "Dec"].map String.data

/-- Does `COLLIERS_DATE_RE = \b(?:Jan|...|Dec)\s+\d{1,2},\s+\d{4}\b` match
starting exactly at the head of `l` (whose preceding character, if any, is
`prev`)?  `\d{1,2},` is matched greedily with backtracking: two digits then
a comma, else one digit then a comma. -/
def dateMatchHere (prev : Option Char) (l : List Char) : Bool :=
  let boundary := match prev with
    | none => true
    | some c => !isWordChar c
  let afterMonth := (monthAbbrevs.filterMap (fun m =>
      if l.take 3 = m then some (l.drop 3) else none)).headD []
  let monthOk := monthAbbrevs.any (fun m => l.take 3 = m)
  let rest1 := afterMonth.dropWhile isPySpace
  let sp1 := afterMonth.length > rest1.length
  let afterDay :=
    match rest1 with
    | d1 :: d2 :: ',' :: r => if d1.isDigit ∧ d2.isDigit then some r
        else if d1.isDigit ∧ d2 = ',' then some (',' :: r) else none
    | d1 :: ',' :: r => if d1.isDigit then some r else none
    | _ => none
  let afterDay := match afterDay with
    | some (',' :: r) => some r
    | some r => some r
    | none => none
  match afterDay with
  | none => false
  | some r2 =>
    let rest2 := r2.dropWhile isPySpace
    let sp2 := r2.length > rest2.length
    match rest2 with
    | y1 :: y2 :: y3 :: y4 :: tail =>
      boundary && monthOk && sp1 && sp2 &&
      y1.isDigit && y2.isDigit && y3.isDigit && y4.isDigit &&
      (match tail with
       | [] => true
       | t :: _ => !isWordChar t)
    | _ => false

/-- `COLLIERS_DATE_RE.search(txt)` as a Boolean: does the date pattern match
anywhere in the string? -/
def hasColliersDate (s : String) : Bool :=
  let rec go (prev : Option Char) : List Char → Bool
    | [] => false
    | c :: rest => dateMatchHere prev (c :: rest) || go (some c) rest
  go none s.data

/-- `COLLIERS_ARTICLE_RE.match(url)`:
`^https://www\.colliers\.com/en/news/[^/?#]+/[^/?#]+/?$` with `IGNORECASE`
(matching on the ASCII-lowercased string is equivalent since the pattern's
character classes are case-free). -/
def colliersArticleMatch (url : String) : Bool :=
  let l := url.data.map asciiLower
  let pre := "https://www.colliers.com/en/news/".data
  if l.take pre.length = pre then
    let r := l.drop pre.length
    let seg1 := r.takeWhile (fun c => !(c = '/' || c = '?' || c = '#'))
    let r1 := r.drop seg1.length
    match r1 with
    | '/' :: r2 =>
      let seg2 := r2.takeWhile (fun c => !(c = '/' || c = '?' || c = '#'))
      let r3 := r2.drop seg2.length
      seg1 ≠ [] && seg2 ≠ [] && (r3 = [] || r3 = ['/'])
    | _ => false
  else false

/-- The data the soup delivers for one element of the scanned region of the
Colliers listing page: its tag name, `href` attribute, flattened anchor text
`el.get_text(" ", strip=True)`, and what `colliers_extract_date` /
`colliers_extract_description` return on `colliers_find_card_with_date(el)`
(the card walk and field extraction are exercised separately on the
ancestor-chain model below). -/
structure CAnchor where
  name : String
  href : Option String
  text : String
  cardDate : Option DateTime
  cardDesc : String
deriving DecidableEq, Repr

/-- `by_url.get(url)` on the insertion-ordered map model. -/
def findItem (byUrl : List Item) (url : String) : Option Item :=
  byUrl.find? (fun r => r.url = url)

/-- In-place update of the record stored under `url` (a Python dict update
keeps the key's insertion position). -/
def replaceItem (byUrl : List Item) (url : String) (it : Item) : List Item :=
  byUrl.map (fun r => if r.url = url then it else r)

/-- Lines 202–207 of `get_colliers_items`: the in-place upgrade of an
already-present record on rediscovery (adopt a date only if the existing
record has none; adopt a description only if the existing one is empty;
replace the title only by a strictly longer one). -/
def colliersUpgrade (existing : Item) (title desc : String)
    (published : Option DateTime) : Item :=
  let e1 := if existing.published = none ∧ published ≠ none then
      { existing with published := published } else existing
  let e2 := if existing.description = "" ∧ desc ≠ "" then
      { e1 with description := desc } else e1
  if title.length > existing.title.length then
    { e2 with title := title } else e2

/-- Lines 192–207 of `get_colliers_items`: insert a new record, or upgrade
the existing one in place. -/
def colliersUpsert (byUrl : List Item) (url title desc : String)
    (published : Option DateTime) : List Item :=
  match findItem byUrl url with
  | none => byUrl ++ [⟨url, title, desc, published, "Colliers"⟩]
  | some existing =>
    replaceItem byUrl url (colliersUpgrade existing title desc published)

/-- The body of the `for el in elements` loop of `get_colliers_items`
(lines 171–207): skip non-anchors, absent/empty hrefs, non-article URLs,
empty titles and boilerplate titles; otherwise upsert. -/
def colliersStep (listing_url : String) (byUrl : List Item) (el : CAnchor) :
    List Item :=
  if el.name ≠ "a" then byUrl
  else
    match el.href with
    | none => byUrl
    | some href =>
      if href = "" then byUrl
      else if ¬ colliersArticleMatch (normalize_url listing_url href) then byUrl
      else if el.text = "" then byUrl
      else if COLLIERS_SKIP_TEXT.contains (pyLower (pyStrip el.text)) then byUrl
      else
        colliersUpsert byUrl (normalize_url listing_url href) el.text
          el.cardDesc el.cardDate

/-- The `by_url` map built by `get_colliers_items` from the scanned
elements. -/
def colliersScan (listing_url : String) (elements : List CAnchor) :
    List Item :=
  elements.foldl (colliersStep listing_url) []

/-- `get_colliers_items` from the point where the scanned element region is
fixed (lines 169–211): build the URL-keyed map, sort its values by
`published or EPOCH` descending, truncate to `limit`.  The page fetch and
the heading-delimited region selection that produce `elements` are
collaborator input here. -/
def get_colliers_items (listing_url : String) (elements : List CAnchor)
    (limit : Nat) : List Item :=
  (sortItems (colliersScan listing_url elements)).take limit

/-! ## Northmarq -/

/-- `NORTHMARQ_BASE_SITE` (line 217). -/
def NORTHMARQ_BASE_SITE : String := "https://www.northmarq.com"

/-- Attempt to match `-(\d{4})-(\d{2})(?:$|/)` at the head of `l` (which
starts right at a candidate `-`); returns the two captured numbers. -/
def nmMatchHere (l : List Char) : Option (Nat × Nat) :=
  match l with
  | '-' :: y1 :: y2 :: y3 :: y4 :: '-' :: m1 :: m2 :: tail =>
    if y1.isDigit ∧ y2.isDigit ∧ y3.isDigit ∧ y4.isDigit ∧
        m1.isDigit ∧ m2.isDigit ∧ (tail = [] ∨ tail.take 1 = ['/']) then
      some (((y1.toNat - 48) * 1000 + (y2.toNat - 48) * 100 +
             (y3.toNat - 48) * 10 + (y4.toNat - 48)),
            ((m1.toNat - 48) * 10 + (m2.toNat - 48)))
    else none
  | _ => none

/-- `NORTHMARQ_YM_RE.search(url)`: the leftmost match of
`-(\d{4})-(\d{2})(?:$|/)`, returning the captured (year, month). -/
def nmScan : List Char → Option (Nat × Nat)
  | [] => none
  | c :: rest =>
    match nmMatchHere (c :: rest) with
    | some r => some r
    | none => nmScan rest

/-- `northmarq_published_from_url` (lines 221–228).  `datetime(year, month,
1, tzinfo=UTC)` raises `ValueError` when the captured month is outside
1..12 (or the year is 0); that uncaught exception is the `.error` case. -/
def northmarq_published_from_url (url : String) :
    Except String (Option DateTime) :=
  match nmScan url.data with
  | none => .ok none
  | some (y, m) =>
    if 1 ≤ y ∧ 1 ≤ m ∧ m ≤ 12 then .ok (some ⟨y, m, 1⟩)
    else .error "ValueError: month must be in 1..12"

/-- Python `pat in s` (substring containment). -/
def strContains (s pat : List Char) : Bool :=
  match s with
  | [] => pat = []
  | _ :: rest => s.take pat.length = pat || strContains rest pat

/-- The data the soup delivers for one `<article>` card of a Northmarq
load-more page: the first `<a href=...>` descendant (if any), its
`aria-label`, the text of the card's `<h3>` (if any), and the description
assembled from the card's deal-type/address/price fields (lines 269–286,
pure collaborator output). -/
structure NCard where
  href : Option String
  ariaLabel : String
  h3Text : Option String
  desc : String
deriving DecidableEq, Repr

/-- The title of a Northmarq record (lines 263–267): the stripped
`aria-label` if nonempty, else the `<h3>` text if present, else the
normalized URL itself. -/
def nmTitle (full_url : String) (card : NCard) : String :=
  if pyStrip card.ariaLabel ≠ "" then pyStrip card.ariaLabel
  else match card.h3Text with
    | some h => h
    | none => full_url

/-- The record built for one Northmarq card (lines 291–297). -/
def nmRecord (full_url : String) (card : NCard)
    (published : Option DateTime) : Item :=
  ⟨full_url, nmTitle full_url card, card.desc, published, "Northmarq"⟩

/-- `if full_url not in by_url: by_url[full_url] = {...}` (lines 290–297):
a rediscovered URL leaves the map completely unchanged. -/
def nmInsert (byUrl : List Item) (full_url : String) (card : NCard)
    (published : Option DateTime) : List Item :=
  if (findItem byUrl full_url).isNone then
    byUrl ++ [nmRecord full_url card published]
  else byUrl

/-- Lines 252–300 of `get_northmarq_items`: the body of the
`for article in soup.find_all("article")` loop.  Returns the updated map
and whether the `len(by_url) >= limit` break fired.  Cards without an
anchor or with a non-transaction URL are skipped *before* the break check
(`continue`). -/
def nmProcessPage (limit : Nat) :
    List Item → List NCard → Except String (List Item × Bool)
  | byUrl, [] => .ok (byUrl, false)
  | byUrl, card :: rest =>
    match card.href with
    | none => nmProcessPage limit byUrl rest
    | some href =>
      if ¬ strContains (normalize_url NORTHMARQ_BASE_SITE href).data
          "/transactions/".data then
        nmProcessPage limit byUrl rest
      else
        match northmarq_published_from_url
            (normalize_url NORTHMARQ_BASE_SITE href) with
        | .error e => .error e
        | .ok published =>
          if (nmInsert byUrl (normalize_url NORTHMARQ_BASE_SITE href) card
              published).length ≥ limit then
            .ok (nmInsert byUrl (normalize_url NORTHMARQ_BASE_SITE href) card
              published, true)
          else
            nmProcessPage limit
              (nmInsert byUrl (normalize_url NORTHMARQ_BASE_SITE href) card
                published) rest

/-- The `for page in range(1, pages+1)` loop of `get_northmarq_items`:
after each page, stop if `len(by_url) >= limit`. -/
def nmPages (limit : Nat) :
    List Item → List (List NCard) → Except String (List Item)
  | byUrl, [] => .ok byUrl
  | byUrl, page :: rest =>
    match nmProcessPage limit byUrl page with
    | .error e => .error e
    | .ok (byUrl', _) =>
      if byUrl'.length ≥ limit then .ok byUrl'
      else nmPages limit byUrl' rest

/-- `get_northmarq_items` (lines 231–310) over the fetched pages' card
lists: accumulate the URL-keyed map (with the early break once `limit`
entries exist), sort by `published or EPOCH` descending, truncate.  An
uncaught `ValueError` from `northmarq_published_from_url` aborts the
whole scan (`.error`). -/
def get_northmarq_items (pages : List (List NCard)) (limit : Nat) :
    Except String (List Item) :=
  match nmPages limit [] pages with
  | .error e => .error e
  | .ok byUrl => .ok ((sortItems byUrl).take limit)

/-! ## Cross-source merge -/

/-- The body of the inner loop of `merge_items` (lines 319–327): first
discovery of a URL is stored; a rediscovery replaces the stored record
*wholesale* iff the stored record has no date and the new one does. -/
def mergeStep (byUrl : List Item) (it : Item) : List Item :=
  match findItem byUrl it.url with
  | none => byUrl ++ [it]
  | some existing =>
    if existing.published = none ∧ it.published ≠ none then
      replaceItem byUrl it.url it
    else byUrl

/-- `merge_items` (lines 316–331). -/
def merge_items (lists : List (List Item)) (total_limit : Nat) : List Item :=
  ((sortItems ((lists.flatten).foldl mergeStep [])).take total_limit)

/-! ## The Colliers card locator -/

/-- The `for _ in range(max_up)` walk of `colliers_find_card_with_date`:
`cardLoop chain fuel i` examines `chain[i]`, `chain[i+1]`, ... for at most
`fuel` steps, returning the index of the first text containing the date
pattern; `none` both when the fuel runs out and when the chain ends
(`node = getattr(node, "parent", None)` became `None`). -/
def cardLoop (chain : List String) : Nat → Nat → Option Nat
  | 0, _ => none
  | fuel + 1, i =>
    match chain.get? i with
    | none => none
    | some txt => if hasColliersDate txt then some i else cardLoop chain fuel (i + 1)

/-- `colliers_find_card_with_date` (lines 97–108) on the anchor's ancestor
chain, where `chain = [anchor text, parent text, grandparent text, ...]`
lists `node.get_text(" ", strip=True)` for the anchor and each ancestor in
turn (every ancestor of a tag in a parsed document is a tag or the soup
object, so the `get_text` attribute test never breaks the loop).  The
result is the index into the chain of the returned node: walk up at most
`max_up` nodes looking for a date; the fallback `a.parent if a.parent else
a` is index 1 when the anchor has a parent and 0 otherwise. -/
def colliers_find_card_with_date (chain : List String)
    (max_up : Nat := 10) : Nat :=
  match cardLoop chain max_up 0 with
  | some i => i
  | none => if chain.length > 1 then 1 else 0

/-- Modelled from the spec (§4.2): "return the first node whose flattened
text contains a recognizable date pattern", examining the anchor and its
ancestors within the depth bound, "if no ancestor within the depth bound
contains a date, return the anchor's immediate parent (or the anchor itself
if it has no parent)" — stated with `findIdx?` on the first `max_up` chain
entries. -/
def spec_card_locator (chain : List String) (max_up : Nat := 10) : Nat :=
  match (chain.take max_up).findIdx? hasColliersDate with
  | some i => i
  | none => if chain.length > 1 then 1 else 0

/-! ## General lemmas -/

theorem foldl_invariant {α β : Type _} (step : β → α → β) (P : β → Prop)
    (l : List α) (init : β) (h0 : P init)
    (hstep : ∀ b a, a ∈ l → P b → P (step b a)) : P (l.foldl step init) := by
  induction l generalizing init with
  | nil => exact h0
  | cons x xs ih =>
    exact ih (step init x) (hstep init x (by simp) h0)
      (fun b a ha hb => hstep b a (by simp [ha]) hb)

theorem DateTime.ble_trans (a b c : DateTime) (hab : DateTime.ble a b = true)
    (hbc : DateTime.ble b c = true) : DateTime.ble a c = true := by
  simp only [DateTime.ble, decide_eq_true_eq] at hab hbc ⊢
  omega

theorem DateTime.ble_total (a b : DateTime) :
    (DateTime.ble a b || DateTime.ble b a) = true := by
  simp only [DateTime.ble, Bool.or_eq_true, decide_eq_true_eq]
  omega

theorem DateTime.ble_refl (a : DateTime) : DateTime.ble a a = true := by
  simp [DateTime.ble]

theorem DateTime.blt_iff_not_ble (a b : DateTime) :
    DateTime.blt a b = true ↔ ¬ DateTime.ble b a = true := by
  constructor
  · intro h hba
    simp only [DateTime.blt, Bool.and_eq_true, Bool.not_eq_true'] at h
    simp [h.2] at hba
  · intro h
    have := DateTime.ble_total a b
    simp only [Bool.or_eq_true] at this
    rcases this with h1 | h1
    · simp [DateTime.blt, h1, Bool.not_eq_true']
      cases h2 : DateTime.ble b a with
      | false => rfl
      | true => exact absurd h2 h
    · exact absurd h1 h

/-- The comparator `sortItems` sorts by. -/
def itemLe (a b : Item) : Bool := DateTime.ble (itemKey b) (itemKey a)

theorem insertItem_perm (x : Item) (l : List Item) :
    (insertItem x l).Perm (x :: l) := by
  induction l with
  | nil => exact List.Perm.refl _
  | cons y ys ih =>
    unfold insertItem
    split
    · exact List.Perm.refl _
    · exact (List.Perm.cons y ih).trans (List.Perm.swap x y ys)

theorem mem_insertItem {z x : Item} {l : List Item} :
    z ∈ insertItem x l ↔ z = x ∨ z ∈ l := by
  rw [(insertItem_perm x l).mem_iff]
  simp

theorem blt_to_ble {a b : DateTime} (h : DateTime.blt a b = true) :
    DateTime.ble a b = true := by
  simp only [DateTime.blt, Bool.and_eq_true] at h
  exact h.1

theorem not_blt_to_ble {a b : DateTime} (h : ¬ DateTime.blt a b = true) :
    DateTime.ble b a = true := by
  cases hb : DateTime.ble b a with
  | true => rfl
  | false =>
    exfalso
    apply h
    rw [DateTime.blt_iff_not_ble]
    rw [hb]
    simp

theorem insertItem_pairwise (x : Item) (l : List Item)
    (h : l.Pairwise (fun a b => itemLe a b = true)) :
    (insertItem x l).Pairwise (fun a b => itemLe a b = true) := by
  induction l with
  | nil => simp [insertItem]
  | cons y ys ih =>
    rw [List.pairwise_cons] at h
    unfold insertItem
    split
    next hblt =>
      rw [List.pairwise_cons]
      refine ⟨?_, List.pairwise_cons.mpr ⟨h.1, h.2⟩⟩
      intro z hz
      rcases List.mem_cons.mp hz with rfl | hz2
      · exact blt_to_ble hblt
      · exact DateTime.ble_trans _ _ _ (h.1 z hz2) (blt_to_ble hblt)
    next hblt =>
      rw [List.pairwise_cons]
      refine ⟨?_, ih h.2⟩
      intro z hz
      rcases mem_insertItem.mp hz with rfl | hz2
      · exact not_blt_to_ble hblt
      · exact h.1 z hz2

theorem sortItems_pairwise (l : List Item) :
    (sortItems l).Pairwise (fun a b => itemLe a b = true) := by
  unfold sortItems
  refine foldl_invariant (fun acc x => insertItem x acc)
    (fun acc => acc.Pairwise (fun a b => itemLe a b = true)) l []
    (List.Pairwise.nil) ?_
  intro b a _ hb
  exact insertItem_pairwise a b hb

theorem sortItems_perm (l : List Item) : (sortItems l).Perm l := by
  have key : ∀ (t : List Item) (acc : List Item),
      (t.foldl (fun acc x => insertItem x acc) acc).Perm (acc ++ t) := by
    intro t
    induction t with
    | nil => intro acc; simp
    | cons x xs ih =>
      intro acc
      rw [List.foldl_cons]
      refine (ih (insertItem x acc)).trans ?_
      refine (List.Perm.append_right xs (insertItem_perm x acc)).trans ?_
      exact List.perm_middle.symm
  have h := key l []
  simpa using h

theorem mem_sortItems {r : Item} {l : List Item} :
    r ∈ sortItems l ↔ r ∈ l := (sortItems_perm l).mem_iff

/-! ## Map-model lemmas -/

theorem findItem_some_url {byUrl : List Item} {url : String} {e : Item}
    (h : findItem byUrl url = some e) : e.url = url := by
  have := List.find?_some h
  simpa using this

theorem findItem_mem {byUrl : List Item} {url : String} {e : Item}
    (h : findItem byUrl url = some e) : e ∈ byUrl :=
  List.mem_of_find?_eq_some h

theorem findItem_none {byUrl : List Item} {url : String}
    (h : findItem byUrl url = none) : ∀ r ∈ byUrl, r.url ≠ url := by
  intro r hr
  have := List.find?_eq_none.mp h r hr
  simpa using this

theorem findItem_replaceItem (byUrl : List Item) (url : String) (it : Item)
    (hit : it.url = url) :
    findItem (replaceItem byUrl url it) url =
      (findItem byUrl url).map (fun r => if r.url = url then it else r) := by
  unfold findItem replaceItem
  rw [List.find?_map]
  have hp : ((fun r : Item => decide (r.url = url)) ∘
      fun r => if r.url = url then it else r) =
      fun r : Item => decide (r.url = url) := by
    funext r
    by_cases h : r.url = url <;> simp [h, hit]
  rw [hp]

theorem replaceItem_map_url (byUrl : List Item) (url : String) (it : Item)
    (hit : it.url = url) :
    (replaceItem byUrl url it).map (·.url) = byUrl.map (·.url) := by
  unfold replaceItem
  rw [List.map_map]
  apply List.map_congr_left
  intro r _
  by_cases h : r.url = url <;> simp [h, hit]

theorem mem_replaceItem {r : Item} {byUrl : List Item} {url : String}
    {it : Item} (h : r ∈ replaceItem byUrl url it) : r = it ∨ r ∈ byUrl := by
  unfold replaceItem at h
  rcases List.mem_map.mp h with ⟨a, ha, rfl⟩
  by_cases hu : a.url = url
  · exact Or.inl (by simp [hu])
  · exact Or.inr (by simpa [hu] using ha)

theorem colliersUpgrade_url (e : Item) (title desc : String)
    (published : Option DateTime) :
    (colliersUpgrade e title desc published).url = e.url := by
  unfold colliersUpgrade
  by_cases h1 : e.published = none ∧ published ≠ none <;>
  by_cases h2 : e.description = "" ∧ desc ≠ "" <;>
  by_cases h3 : title.length > e.title.length <;>
  simp [h1, h2, h3]

theorem colliersUpgrade_source (e : Item) (title desc : String)
    (published : Option DateTime) :
    (colliersUpgrade e title desc published).source = e.source := by
  unfold colliersUpgrade
  by_cases h1 : e.published = none ∧ published ≠ none <;>
  by_cases h2 : e.description = "" ∧ desc ≠ "" <;>
  by_cases h3 : title.length > e.title.length <;>
  simp [h1, h2, h3]

theorem colliersUpgrade_title (e : Item) (title desc : String)
    (published : Option DateTime) :
    (colliersUpgrade e title desc published).title = e.title ∨
      (colliersUpgrade e title desc published).title = title := by
  unfold colliersUpgrade
  by_cases h1 : e.published = none ∧ published ≠ none <;>
  by_cases h2 : e.description = "" ∧ desc ≠ "" <;>
  by_cases h3 : title.length > e.title.length <;>
  simp [h1, h2, h3]

theorem colliersUpgrade_published (e : Item) (title desc : String)
    (published : Option DateTime) :
    (colliersUpgrade e title desc published).published =
      if e.published = none then published else e.published := by
  unfold colliersUpgrade
  repeat' split
  all_goals simp_all

theorem colliersUpsert_map_url (byUrl : List Item) (url title desc : String)
    (published : Option DateTime) :
    (colliersUpsert byUrl url title desc published).map (·.url) =
      if findItem byUrl url = none then byUrl.map (·.url) ++ [url]
      else byUrl.map (·.url) := by
  unfold colliersUpsert
  cases h : findItem byUrl url with
  | none => simp
  | some e =>
    simp only [h]
    have he : e.url = url := findItem_some_url h
    rw [replaceItem_map_url]
    · simp
    · rw [colliersUpgrade_url, he]

theorem colliersUpsert_title (byUrl : List Item) (url title desc : String)
    (published : Option DateTime) (P : String → Prop)
    (hold : ∀ r ∈ byUrl, P r.title) (hnew : P title) :
    ∀ r ∈ colliersUpsert byUrl url title desc published, P r.title := by
  intro r hr
  unfold colliersUpsert at hr
  cases h : findItem byUrl url with
  | none =>
    rw [h] at hr
    rcases List.mem_append.mp hr with h1 | h1
    · exact hold r h1
    · simp at h1; subst h1; exact hnew
  | some e =>
    rw [h] at hr
    rcases mem_replaceItem hr with rfl | h1
    · rcases colliersUpgrade_title e title desc published with ht | ht
      · rw [ht]; exact hold e (findItem_mem h)
      · rw [ht]; exact hnew
    · exact hold r h1

/-- Each element either leaves the map unchanged or upserts an accepted
anchor. -/
theorem colliersStep_eq (lst : String) (byUrl : List Item) (el : CAnchor) :
    colliersStep lst byUrl el = byUrl ∨
    ∃ href, el.href = some href ∧
      colliersStep lst byUrl el =
        colliersUpsert byUrl (normalize_url lst href) el.text
          el.cardDesc el.cardDate ∧
      el.text ≠ "" ∧
      COLLIERS_SKIP_TEXT.contains (pyLower (pyStrip el.text)) = false := by
  unfold colliersStep
  by_cases hn : el.name ≠ "a"
  · rw [if_pos hn]; exact Or.inl rfl
  rw [if_neg hn]
  cases hh : el.href with
  | none => exact Or.inl rfl
  | some href =>
    simp only []
    by_cases h1 : href = ""
    · rw [if_pos h1]; exact Or.inl rfl
    rw [if_neg h1]
    by_cases h2 : ¬ colliersArticleMatch (normalize_url lst href) = true
    · rw [if_pos h2]; exact Or.inl rfl
    rw [if_neg h2]
    by_cases h3 : el.text = ""
    · rw [if_pos h3]; exact Or.inl rfl
    rw [if_neg h3]
    by_cases h4 : COLLIERS_SKIP_TEXT.contains (pyLower (pyStrip el.text)) = true
    · rw [if_pos h4]; exact Or.inl rfl
    · rw [if_neg h4]
      exact Or.inr ⟨href, rfl, rfl, h3, by simpa using h4⟩

/-- When the anchor passes every filter, the step is exactly the upsert. -/
theorem colliersStep_accepted (lst : String) (byUrl : List Item)
    (el : CAnchor) (href : String)
    (hn : el.name = "a") (hh : el.href = some href) (h1 : href ≠ "")
    (h2 : colliersArticleMatch (normalize_url lst href) = true)
    (h3 : el.text ≠ "")
    (h4 : COLLIERS_SKIP_TEXT.contains (pyLower (pyStrip el.text)) = false) :
    colliersStep lst byUrl el =
      colliersUpsert byUrl (normalize_url lst href) el.text
        el.cardDesc el.cardDate := by
  unfold colliersStep
  rw [if_neg (by simp [hn]), hh]
  simp only []
  rw [if_neg h1, if_neg (by simp [h2]), if_neg h3, if_neg (by rw [h4]; simp)]

theorem colliersUpsert_mem_url (byUrl : List Item) (url title desc : String)
    (published : Option DateTime) :
    url ∈ (colliersUpsert byUrl url title desc published).map (·.url) := by
  rw [colliersUpsert_map_url]
  split
  · simp
  next hfind =>
    cases h : findItem byUrl url with
    | none => exact absurd h hfind
    | some e =>
      exact List.mem_map.mpr ⟨e, findItem_mem h, findItem_some_url h⟩

theorem colliersScan_title (lst : String) (els : List CAnchor) :
    ∀ r ∈ colliersScan lst els,
      COLLIERS_SKIP_TEXT.contains (pyLower (pyStrip r.title)) = false := by
  unfold colliersScan
  refine foldl_invariant (colliersStep lst)
    (fun b => ∀ r ∈ b, COLLIERS_SKIP_TEXT.contains (pyLower (pyStrip r.title)) = false)
    els [] (fun r hr => by cases hr) ?_
  intro b el _ hb
  rcases colliersStep_eq lst b el with he | ⟨href, _, he, _, h4⟩
  · rw [he]; exact hb
  · rw [he]
    exact colliersUpsert_title b (normalize_url lst href) el.text el.cardDesc
      el.cardDate (fun t => COLLIERS_SKIP_TEXT.contains (pyLower (pyStrip t)) = false)
      hb h4

theorem colliersScan_nodup (lst : String) (els : List CAnchor) :
    ((colliersScan lst els).map (·.url)).Nodup := by
  unfold colliersScan
  refine foldl_invariant (colliersStep lst)
    (fun b => (b.map (·.url)).Nodup) els [] (by simp) ?_
  intro b el _ hb
  rcases colliersStep_eq lst b el with he | ⟨href, _, he, _, _⟩
  · rw [he]; exact hb
  · rw [he, colliersUpsert_map_url]
    split
    next hfind =>
      have hnotin : (normalize_url lst href) ∉ b.map (·.url) := by
        intro hmem
        rcases List.mem_map.mp hmem with ⟨a, ha, hau⟩
        exact findItem_none hfind a ha hau
      simp [List.nodup_append, hnotin, hb]
    next => exact hb

theorem colliersScan_mono (lst : String) (t : List CAnchor) (b : List Item)
    (u : String) (h : u ∈ b.map (·.url)) :
    u ∈ (t.foldl (colliersStep lst) b).map (·.url) := by
  refine foldl_invariant (colliersStep lst)
    (fun byUrl => u ∈ byUrl.map (·.url)) t b h ?_
  intro byUrl el _ hb
  rcases colliersStep_eq lst byUrl el with he | ⟨href, _, he, _, _⟩
  · rw [he]; exact hb
  · rw [he, colliersUpsert_map_url]
    split
    · exact List.mem_append_left _ hb
    · exact hb

/-- Any anchor that passes all filters leaves its normalized URL present in
the final scan map. -/
theorem colliersScan_mem_url (lst : String) (els : List CAnchor)
    (el : CAnchor) (href : String) (hel : el ∈ els)
    (hn : el.name = "a") (hh : el.href = some href) (h1 : href ≠ "")
    (h2 : colliersArticleMatch (normalize_url lst href) = true)
    (h3 : el.text ≠ "")
    (h4 : COLLIERS_SKIP_TEXT.contains (pyLower (pyStrip el.text)) = false) :
    normalize_url lst href ∈ (colliersScan lst els).map (·.url) := by
  obtain ⟨s, t, rfl⟩ := List.append_of_mem hel
  unfold colliersScan
  rw [List.foldl_append, List.foldl_cons]
  apply colliersScan_mono
  rw [colliersStep_accepted lst _ el href hn hh h1 h2 h3 h4]
  exact colliersUpsert_mem_url _ _ _ _ _

theorem get_colliers_items_subset {r : Item} {lst : String}
    {els : List CAnchor} {limit : Nat}
    (h : r ∈ get_colliers_items lst els limit) : r ∈ colliersScan lst els := by
  unfold get_colliers_items at h
  exact mem_sortItems.mp (List.mem_of_mem_take h)

/-! ### Merge lemmas -/

theorem mergeStep_dated_existing (byUrl : List Item) (it : Item) (e : Item)
    (hfind : findItem byUrl it.url = some e) (hd : e.published ≠ none) :
    mergeStep byUrl it = byUrl := by
  unfold mergeStep
  rw [hfind]
  simp only []
  rw [if_neg]
  intro ⟨ha, _⟩
  exact hd ha

theorem mergeStep_undated_existing (byUrl : List Item) (it : Item) (e : Item)
    (hfind : findItem byUrl it.url = some e) (hd : e.published = none)
    (hit : it.published ≠ none) :
    mergeStep byUrl it = replaceItem byUrl it.url it := by
  unfold mergeStep
  rw [hfind]
  simp only []
  rw [if_pos ⟨hd, hit⟩]

theorem mem_mergeStep {r : Item} {byUrl : List Item} {it : Item}
    (h : r ∈ mergeStep byUrl it) : r ∈ byUrl ∨ r = it := by
  unfold mergeStep at h
  cases hfind : findItem byUrl it.url with
  | none =>
    rw [hfind] at h
    rcases List.mem_append.mp h with h1 | h1
    · exact Or.inl h1
    · simp at h1; exact Or.inr h1
  | some e =>
    rw [hfind] at h
    simp only [] at h
    split at h
    · rcases mem_replaceItem h with h1 | h1
      · exact Or.inr h1
      · exact Or.inl h1
    · exact Or.inl h

theorem mergeStep_map_url (byUrl : List Item) (it : Item) :
    (mergeStep byUrl it).map (·.url) =
      if findItem byUrl it.url = none then byUrl.map (·.url) ++ [it.url]
      else byUrl.map (·.url) := by
  unfold mergeStep
  cases hfind : findItem byUrl it.url with
  | none => simp
  | some e =>
    simp only [reduceCtorEq, if_false]
    split
    · exact replaceItem_map_url byUrl it.url it rfl
    · rfl

/-- Every record surviving the merge fold is one of the records fed in. -/
theorem mergeFold_subset (l : List Item) (init : List Item) :
    ∀ r ∈ l.foldl mergeStep init, r ∈ init ∨ r ∈ l := by
  refine foldl_invariant mergeStep
    (fun b => ∀ r ∈ b, r ∈ init ∨ r ∈ l) l init
    (fun r hr => Or.inl hr) ?_
  intro b it hit hb r hr
  rcases mem_mergeStep hr with h1 | rfl
  · exact hb r h1
  · exact Or.inr hit

theorem mergeFold_nodup (l : List Item) (init : List Item)
    (h : (init.map (·.url)).Nodup) :
    ((l.foldl mergeStep init).map (·.url)).Nodup := by
  refine foldl_invariant mergeStep
    (fun b => (b.map (·.url)).Nodup) l init h ?_
  intro b it _ hb
  rw [mergeStep_map_url]
  split
  next hfind =>
    have hnotin : it.url ∉ b.map (·.url) := by
      intro hmem
      rcases List.mem_map.mp hmem with ⟨a, ha, hau⟩
      exact findItem_none hfind a ha hau
    simp [List.nodup_append, hnotin, hb]
  next => exact hb

theorem merge_items_subset {r : Item} {lists : List (List Item)}
    {total_limit : Nat} (h : r ∈ merge_items lists total_limit) :
    r ∈ lists.flatten := by
  unfold merge_items at h
  have h2 := mem_sortItems.mp (List.mem_of_mem_take h)
  rcases mergeFold_subset _ _ _ h2 with h3 | h3
  · cases h3
  · exact h3

/-! ### Northmarq lemmas -/

theorem nmInsert_sub (byUrl : List Item) (full_url : String) (card : NCard)
    (published : Option DateTime) :
    ∀ r ∈ byUrl, r ∈ nmInsert byUrl full_url card published := by
  intro r hr
  unfold nmInsert
  split
  · exact List.mem_append_left _ hr
  · exact hr

theorem mem_nmInsert {r : Item} {byUrl : List Item} {full_url : String}
    {card : NCard} {published : Option DateTime}
    (h : r ∈ nmInsert byUrl full_url card published) :
    r ∈ byUrl ∨ r = nmRecord full_url card published := by
  unfold nmInsert at h
  split at h
  · rcases List.mem_append.mp h with h1 | h1
    · exact Or.inl h1
    · simp at h1; exact Or.inr h1
  · exact Or.inl h

theorem nmInsert_nodup (byUrl : List Item) (full_url : String) (card : NCard)
    (published : Option DateTime) (h : (byUrl.map (·.url)).Nodup) :
    ((nmInsert byUrl full_url card published).map (·.url)).Nodup := by
  unfold nmInsert
  split
  next hfind =>
    have hf : findItem byUrl full_url = none :=
      Option.isNone_iff_eq_none.mp hfind
    have hnotin : full_url ∉ byUrl.map (·.url) := by
      intro hmem
      rcases List.mem_map.mp hmem with ⟨a, ha, hau⟩
      exact findItem_none hf a ha hau
    simp [List.nodup_append, hnotin, h, nmRecord]
  next => exact h

/-- Any property preserved by `nmInsert` steps is carried from the incoming
map to the final map of a page scan. -/
theorem nmProcessPage_invariant (limit : Nat) (cards : List NCard)
    (P : List Item → Prop)
    (hP : ∀ b full_url card published,
      northmarq_published_from_url full_url = .ok published →
      P b → P (nmInsert b full_url card published)) :
    ∀ b out flag, nmProcessPage limit b cards = .ok (out, flag) → P b → P out := by
  induction cards with
  | nil =>
    intro b out flag h hb
    unfold nmProcessPage at h
    simp only [Except.ok.injEq, Prod.mk.injEq] at h
    rw [← h.1]
    exact hb
  | cons card rest ih =>
    intro b out flag h hb
    unfold nmProcessPage at h
    cases hh : card.href with
    | none =>
      rw [hh] at h
      exact ih b out flag h hb
    | some href =>
      rw [hh] at h
      simp only [] at h
      by_cases hc : ¬ strContains
          (normalize_url NORTHMARQ_BASE_SITE href).data "/transactions/".data = true
      · rw [if_pos hc] at h
        exact ih b out flag h hb
      rw [if_neg hc] at h
      cases hp : northmarq_published_from_url
          (normalize_url NORTHMARQ_BASE_SITE href) with
      | error e => rw [hp] at h; cases h
      | ok published =>
        rw [hp] at h
        simp only [] at h
        have hP' := hP b (normalize_url NORTHMARQ_BASE_SITE href) card
          published hp hb
        split at h
        · simp only [Except.ok.injEq, Prod.mk.injEq] at h
          rw [← h.1]
          exact hP'
        · exact ih _ out flag h hP'

theorem nmPages_invariant (limit : Nat) (pages : List (List NCard))
    (P : List Item → Prop)
    (hP : ∀ b full_url card published,
      northmarq_published_from_url full_url = .ok published →
      P b → P (nmInsert b full_url card published)) :
    ∀ b out, nmPages limit b pages = .ok out → P b → P out := by
  induction pages with
  | nil =>
    intro b out h hb
    unfold nmPages at h
    simp only [Except.ok.injEq] at h
    rw [← h]
    exact hb
  | cons page rest ih =>
    intro b out h hb
    unfold nmPages at h
    cases hpp : nmProcessPage limit b page with
    | error e => rw [hpp] at h; cases h
    | ok pr =>
      rw [hpp] at h
      simp only [] at h
      have hP' := nmProcessPage_invariant limit page P hP b pr.1 pr.2 (by
        rw [hpp]) hb
      split at h
      · simp only [Except.ok.injEq] at h
        rw [← h]
        exact hP'
      · exact ih pr.1 out h hP'

theorem get_northmarq_items_invariant (pages : List (List NCard))
    (limit : Nat) (out : List Item)
    (h : get_northmarq_items pages limit = .ok out)
    (P : List Item → Prop) (hnil : P [])
    (hP : ∀ b full_url card published,
      northmarq_published_from_url full_url = .ok published →
      P b → P (nmInsert b full_url card published)) :
    ∃ byUrl, P byUrl ∧ out = (sortItems byUrl).take limit := by
  unfold get_northmarq_items at h
  cases hm : nmPages limit [] pages with
  | error e => rw [hm] at h; cases h
  | ok byUrl =>
    rw [hm] at h
    simp only [Except.ok.injEq] at h
    exact ⟨byUrl, nmPages_invariant limit pages P hP [] byUrl hm hnil, h.symm⟩

/-! ### Sorting lemmas -/

theorem sortItems_take_pairwise (l : List Item) (limit : Nat) :
    ((sortItems l).take limit).Pairwise (fun a b => itemLe a b = true) :=
  (sortItems_pairwise l).sublist (List.take_sublist _ _)

theorem DateTime.blt_irrefl (a : DateTime) : DateTime.blt a a = false := by
  cases h : DateTime.blt a a with
  | false => rfl
  | true => exact absurd (DateTime.ble_refl a) ((DateTime.blt_iff_not_ble a a).mp h)

/-- Anything discovered that is strictly more recent than some member of the
truncated sorted output is itself in the truncated sorted output. -/
theorem sortItems_take_closure (l : List Item) (limit : Nat) (r r' : Item)
    (hr : r ∈ (sortItems l).take limit) (hr' : r' ∈ l)
    (hlt : DateTime.blt (itemKey r) (itemKey r') = true) :
    r' ∈ (sortItems l).take limit := by
  have hpw := sortItems_pairwise l
  rw [List.pairwise_iff_get] at hpw
  obtain ⟨j, hjt, hjv⟩ := List.mem_iff_getElem.mp hr
  have hjlen := hjt
  rw [List.length_take] at hjlen
  have hjs : j < (sortItems l).length := by omega
  have hjval : (sortItems l)[j] = r := by
    rw [← hjv]
    exact (List.getElem_take _).symm
  obtain ⟨k, hks, hkv⟩ := List.mem_iff_getElem.mp (mem_sortItems.mpr hr')
  rcases Nat.lt_trichotomy j k with hjk | hjk | hjk
  · exfalso
    have := hpw ⟨j, hjs⟩ ⟨k, hks⟩ hjk
    simp only [List.get_eq_getElem, itemLe, hjval, hkv] at this
    exact (DateTime.blt_iff_not_ble _ _).mp hlt this
  · exfalso
    have : r = r' := by subst hjk; rw [← hjval, ← hkv]
    rw [this] at hlt
    rw [DateTime.blt_irrefl] at hlt
    cases hlt
  · have hkt : k < ((sortItems l).take limit).length := by
      rw [List.length_take]; omega
    have : ((sortItems l).take limit)[k] = r' := by
      rw [List.getElem_take]
      exact hkv
    rw [← this]
    exact List.getElem_mem hkt

/-! ### The card locator is the first-date-in-chain search -/

theorem findIdx?_start_shift {α : Type _} (p : α → Bool) (X : List α) :
    ∀ i : Nat, X.findIdx? p i = (X.findIdx? p 0).map (· + i) := by
  induction X with
  | nil => intro i; simp [List.findIdx?]
  | cons a X ih =>
    intro i
    rw [List.findIdx?_cons, List.findIdx?_cons]
    by_cases hp : p a
    · rw [if_pos hp, if_pos hp]; simp
    · rw [if_neg hp, if_neg hp]
      simp only [Nat.zero_add]
      rw [ih (i + 1), ih 1, Option.map_map]
      congr 1
      funext x
      simp only [Function.comp_apply]
      omega

theorem cardLoop_spec (chain : List String) (fuel : Nat) : ∀ i,
    cardLoop chain fuel i =
      (((chain.drop i).take fuel).findIdx? hasColliersDate).map (· + i) := by
  induction fuel with
  | zero => intro i; simp [cardLoop, List.findIdx?]
  | succ fuel ih =>
    intro i
    unfold cardLoop
    cases hget : chain.get? i with
    | none =>
      have hlen : chain.length ≤ i := by
        rw [List.get?_eq_getElem?] at hget
        exact List.getElem?_eq_none_iff.mp hget
      rw [List.drop_eq_nil_of_le hlen]
      simp [List.findIdx?]
    | some txt =>
      have hlt : i < chain.length := by
        rw [List.get?_eq_getElem?] at hget
        by_contra hc
        rw [List.getElem?_eq_none_iff.mpr (by omega)] at hget
        cases hget
      have htxt : chain[i] = txt := by
        rw [List.get?_eq_getElem?] at hget
        have h2 := List.getElem?_eq_getElem hlt
        rw [h2] at hget
        exact Option.some.inj hget
      have hdrop : chain.drop i = txt :: chain.drop (i + 1) := by
        rw [← List.getElem_cons_drop chain i hlt, htxt]
      rw [hdrop, List.take_succ_cons, List.findIdx?_cons]
      simp only []
      by_cases hd : hasColliersDate txt
      · rw [if_pos hd, if_pos hd]; simp
      · rw [if_neg hd, if_neg hd]
        simp only [Nat.zero_add]
        rw [ih (i + 1), findIdx?_start_shift hasColliersDate _ 1,
          Option.map_map]
        congr 1
        funext x
        simp only [Function.comp_apply]
        omega

/-- The walk of `colliers_find_card_with_date` is exactly "first index in
the first `max_up` chain entries whose text contains the date pattern". -/
theorem cardLoop_eq_findIdx? (chain : List String) (max_up : Nat) :
    cardLoop chain max_up 0 = (chain.take max_up).findIdx? hasColliersDate := by
  rw [cardLoop_spec chain max_up 0]
  simp

/-! ### Characters of normalized URLs -/

theorem head?_dropWhile_not {α : Type _} (p : α → Bool) (l : List α) {c : α}
    (h : (l.dropWhile p).head? = some c) : p c = false := by
  induction l with
  | nil => cases h
  | cons a l ih =>
    rw [List.dropWhile_cons] at h
    split at h
    · exact ih h
    next hp =>
      simp only [List.head?_cons, Option.some.injEq] at h
      subst h
      simpa using hp

theorem mem_rstripSlash {c : Char} {l : List Char}
    (h : c ∈ rstripSlash l) : c ∈ l := by
  unfold rstripSlash at h
  rw [List.mem_reverse] at h
  exact List.mem_reverse.mp ((List.dropWhile_sublist _).subset h)

theorem rstripSlash_getLast? (l : List Char) :
    (rstripSlash l).getLast? ≠ some '/' := by
  unfold rstripSlash
  rw [List.getLast?_reverse]
  intro h
  have := head?_dropWhile_not _ _ h
  simp at this

theorem asciiLower_cases (c : Char) :
    asciiLower c = c ∨ ∃ p ∈ upperLower, asciiLower c = p.2 := by
  unfold asciiLower
  cases h : upperLower.find? (fun p => p.1 = c) with
  | none => exact Or.inl rfl
  | some p => exact Or.inr ⟨p, List.mem_of_find?_eq_some h, rfl⟩

theorem asciiLower_ne {c : Char} (h : isSchemeChar c = true) :
    asciiLower c ≠ '#' ∧ asciiLower c ≠ '?' := by
  rcases asciiLower_cases c with he | ⟨p, hp, he⟩
  · rw [he]
    constructor
    · intro hc; rw [hc] at h; exact absurd h (by decide)
    · intro hc; rw [hc] at h; exact absurd h (by decide)
  · rw [he]
    have : ∀ q ∈ upperLower, q.2 ≠ '#' ∧ q.2 ≠ '?' := by decide
    exact this p hp

theorem extractScheme_fst_chars (l : List Char) :
    ∀ c ∈ (extractScheme l).1, c ≠ '#' ∧ c ≠ '?' := by
  intro c h
  unfold extractScheme at h
  simp only [] at h
  split at h
  next hcond =>
    rcases List.mem_map.mp h with ⟨c', hc', rfl⟩
    exact asciiLower_ne (List.all_eq_true.mp hcond.2.2.2 c' hc')
  next => cases h

theorem urlsplitD_scheme_chars (l : List Char) :
    ∀ c ∈ (urlsplitD l []).scheme, c ≠ '#' ∧ c ≠ '?' := by
  intro c h
  unfold urlsplitD at h
  simp only [] at h
  split at h
  · cases h
  · exact extractScheme_fst_chars l c h

theorem urlsplitD_netloc_chars (l d : List Char) :
    ∀ c ∈ (urlsplitD l d).netloc, isNetlocChar c = true := by
  intro c h
  unfold urlsplitD at h
  simp only [] at h
  split at h
  · exact List.mem_takeWhile_imp h
  · cases h

theorem urlsplitD_path_chars (l d : List Char) :
    ∀ c ∈ (urlsplitD l d).path, c ≠ '#' ∧ c ≠ '?' := by
  intro c h
  unfold urlsplitD at h
  simp only [] at h
  constructor
  · have h2 := (List.takeWhile_sublist _).subset h
    have h3 := List.mem_takeWhile_imp h2
    simpa using h3
  · have h3 := List.mem_takeWhile_imp h
    simpa using h3

theorem splitparams_fst_subset {p : List Char} {c : Char}
    (h : c ∈ (splitparams p).1) : c ∈ p := by
  unfold splitparams at h
  split at h
  · simp only [] at h
    split at h
    · rcases List.mem_append.mp h with h1 | h1
      · exact (List.take_sublist _ _).subset h1
      · have h2 := (List.takeWhile_sublist _).subset h1
        rw [List.mem_reverse] at h2
        exact List.mem_reverse.mp ((List.takeWhile_sublist _).subset h2)
    · exact h
  · split at h
    · exact (List.takeWhile_sublist _).subset h
    · exact h

theorem splitparams_snd_subset {p : List Char} {c : Char}
    (h : c ∈ (splitparams p).2) : c ∈ p := by
  unfold splitparams at h
  split at h
  · simp only [] at h
    split at h
    · have h1 := (List.drop_sublist _ _).subset h
      have h2 := (List.dropWhile_sublist _).subset h1
      have h3 := (List.takeWhile_sublist _).subset (List.mem_reverse.mp h2)
      exact List.mem_reverse.mp h3
    · cases h
  · split at h
    · exact (List.dropWhile_sublist _).subset ((List.drop_sublist _ _).subset h)
    · cases h

theorem urlparseD_scheme (l d : List Char) :
    (urlparseD l d).scheme = (urlsplitD l d).scheme := by
  unfold urlparseD
  simp only []
  split <;> rfl

theorem urlparseD_netloc (l d : List Char) :
    (urlparseD l d).netloc = (urlsplitD l d).netloc := by
  unfold urlparseD
  simp only []
  split <;> rfl

theorem urlparseD_path_subset (l d : List Char) :
    ∀ c ∈ (urlparseD l d).path, c ∈ (urlsplitD l d).path := by
  intro c h
  unfold urlparseD at h
  simp only [] at h
  split at h
  · exact splitparams_fst_subset h
  · exact h

theorem urlparseD_params_subset (l d : List Char) :
    ∀ c ∈ (urlparseD l d).params, c ∈ (urlsplitD l d).path := by
  intro c h
  unfold urlparseD at h
  simp only [] at h
  split at h
  · exact splitparams_snd_subset h
  · cases h

theorem mem_urlunsplit {c : Char} {r : SplitResult} (hq : r.query = [])
    (hf : r.fragment = []) (h : c ∈ urlunsplit r) :
    c ∈ r.scheme ∨ c ∈ r.netloc ∨ c ∈ r.path ∨ c = ':' ∨ c = '/' := by
  unfold urlunsplit at h
  simp only [hq, hf, ne_eq, not_true_eq_false, if_false, reduceIte] at h
  repeat' split at h
  all_goals
    try simp only [List.mem_append, List.mem_cons, List.not_mem_nil,
      or_false, false_or] at h
  all_goals tauto

theorem netlocChar_ne {c : Char} (h : isNetlocChar c = true) :
    c ≠ '#' ∧ c ≠ '?' := by
  unfold isNetlocChar at h
  constructor
  · intro hc; rw [hc] at h; exact absurd h (by decide)
  · intro hc; rw [hc] at h; exact absurd h (by decide)

theorem urlunparse_clean_chars (u : List Char) :
    ∀ c ∈ urlunparse ⟨(urlparse u).scheme, (urlparse u).netloc,
      (urlparse u).path, (urlparse u).params, [], []⟩,
      c ≠ '#' ∧ c ≠ '?' := by
  intro c h
  unfold urlunparse at h
  simp only [] at h
  have hm := mem_urlunsplit (r := ⟨(urlparse u).scheme, (urlparse u).netloc,
    (if (urlparse u).params ≠ [] then
      (urlparse u).path ++ ';' :: (urlparse u).params
     else (urlparse u).path), [], []⟩) rfl rfl h
  simp only [] at hm
  rcases hm with hs | hn | hp | hc | hc
  · have : (urlparse u).scheme = (urlsplitD u []).scheme := urlparseD_scheme u []
    rw [this] at hs
    exact urlsplitD_scheme_chars u c hs
  · have : (urlparse u).netloc = (urlsplitD u []).netloc := urlparseD_netloc u []
    rw [this] at hn
    exact netlocChar_ne (urlsplitD_netloc_chars u [] c hn)
  · split at hp
    · rcases List.mem_append.mp hp with h1 | h1
      · exact urlsplitD_path_chars u [] c (urlparseD_path_subset u [] c h1)
      · rcases List.mem_cons.mp h1 with rfl | h2
        · exact ⟨by decide, by decide⟩
        · exact urlsplitD_path_chars u [] c (urlparseD_params_subset u [] c h2)
    · exact urlsplitD_path_chars u [] c (urlparseD_path_subset u [] c hp)
  · rw [hc]; exact ⟨by decide, by decide⟩
  · rw [hc]; exact ⟨by decide, by decide⟩

/-- The output of `normalize_url` contains no query or fragment characters
and never ends with a slash. -/
theorem normalize_url_clean (base href : String) :
    '#' ∉ (normalize_url base href).data ∧
    '?' ∉ (normalize_url base href).data ∧
    (normalize_url base href).data.getLast? ≠ some '/' := by
  unfold normalize_url
  simp only []
  refine ⟨fun h => ?_, fun h => ?_, ?_⟩
  · exact (urlunparse_clean_chars _ _ (mem_rstripSlash h)).1 rfl
  · exact (urlunparse_clean_chars _ _ (mem_rstripSlash h)).2 rfl
  · exact rstripSlash_getLast? _

/-! ## Claims -/

/-- C6 (counterexample): `normalize_url` strips *all* trailing slashes, not
exactly one: on `href = http://x/a//` the implementation yields
`http://x/a`, while the one-slash variant described by the spec yields
`http://x/a/`. -/
theorem normalize_url_strips_more_than_one_slash :
    normalize_url "http://x" "http://x/a//" = "http://x/a" ∧
    spec_normalize_url_one_slash "http://x" "http://x/a//" = "http://x/a/" ∧
    ("http://x/a" : String) ≠ "http://x/a/" := by
  refine ⟨rfl, rfl, by decide⟩

/-- C6 (amended): for every base and href, `normalize_url` resolves the href
against the base and then removes the query string and the fragment (no `?`
or `#` remains in the output) and strips *all* trailing slashes (the output
never ends with `/`). -/
theorem normalize_url_removes_query_fragment_and_all_trailing_slashes :
    ∀ base href : String,
      '#' ∉ (normalize_url base href).data ∧
      '?' ∉ (normalize_url base href).data ∧
      (normalize_url base href).data.getLast? ≠ some '/' :=
  normalize_url_clean

/-- C7 (counterexample): `normalize_url` is not idempotent for every base:
with the relative base `a/b` and href `c`, the first normalization yields
`a/c`, and re-normalizing that output yields `a/a/c` ≠ `a/c`. -/
theorem normalize_url_not_idempotent_for_relative_base :
    normalize_url "a/b" "c" = "a/c" ∧
    normalize_url "a/b" (normalize_url "a/b" "c") = "a/a/c" ∧
    normalize_url "a/b" (normalize_url "a/b" "c") ≠ normalize_url "a/b" "c" := by
  have h1 : normalize_url "a/b" "c" = "a/c" := rfl
  have h2 : normalize_url "a/b" "a/c" = "a/a/c" := rfl
  refine ⟨h1, ?_, ?_⟩
  · rw [h1]; exact h2
  · rw [h1, h2]; decide

/-- C7 (amended): on the spec's own examples with base `http://x`, both
`http://x/a?b=1#c` and `http://x/a/` normalize to `http://x/a`, and
re-normalizing these outputs returns them unchanged; idempotence does not
hold universally (see the counterexample). -/
theorem normalize_url_idempotent_on_spec_examples :
    normalize_url "http://x" "http://x/a?b=1#c" = "http://x/a" ∧
    normalize_url "http://x" "http://x/a/" = "http://x/a" ∧
    normalize_url "http://x" (normalize_url "http://x" "http://x/a?b=1#c") =
      normalize_url "http://x" "http://x/a?b=1#c" ∧
    normalize_url "http://x" (normalize_url "http://x" "http://x/a/") =
      normalize_url "http://x" "http://x/a/" := by
  have h1 : normalize_url "http://x" "http://x/a?b=1#c" = "http://x/a" := rfl
  have h2 : normalize_url "http://x" "http://x/a/" = "http://x/a" := rfl
  have h3 : normalize_url "http://x" "http://x/a" = "http://x/a" := rfl
  refine ⟨h1, h2, ?_, ?_⟩
  · rw [h1, h3]
  · rw [h2, h3]

/-- C9: the card locator returns the first node — the anchor itself, then
each ancestor in turn, within the `max_up` bound — whose flattened text
contains the month-day-comma-year date pattern, and otherwise the anchor's
immediate parent (index 1) when it exists, else the anchor itself
(index 0). -/
theorem card_locator_first_dated_ancestor :
    ∀ (chain : List String) (max_up : Nat),
      colliers_find_card_with_date chain max_up =
        spec_card_locator chain max_up := by
  intro chain m
  unfold colliers_find_card_with_date spec_card_locator
  rw [cardLoop_eq_findIdx?]

theorem nmScan_sound (l : List Char) : ∀ y m, nmScan l = some (y, m) →
    ∃ pre post, l = pre ++ post ∧ nmMatchHere post = some (y, m) := by
  induction l with
  | nil => intro y m h; cases h
  | cons c rest ih =>
    intro y m h
    unfold nmScan at h
    cases hm : nmMatchHere (c :: rest) with
    | some r =>
      rw [hm] at h
      simp only [Option.some.injEq] at h
      exact ⟨[], c :: rest, rfl, by rw [hm, h]⟩
    | none =>
      rw [hm] at h
      obtain ⟨pre, post, heq, hmatch⟩ := ih y m h
      exact ⟨c :: pre, post, by rw [heq]; rfl, hmatch⟩

/-- C10 (counterexample): a URL whose trailing `-YYYY-MM` match has an
out-of-range month does not yield an absent date — `datetime(2024, 13, 1)`
raises an uncaught `ValueError` that aborts the whole scan. -/
theorem northmarq_invalid_month_raises_valueerror :
    northmarq_published_from_url
      "https://www.northmarq.com/transactions/deal-2024-13" =
      .error "ValueError: month must be in 1..12" ∧
    (Except.error "ValueError: month must be in 1..12" ≠
      (.ok none : Except String (Option DateTime))) :=
  ⟨rfl, fun h => Except.noConfusion h⟩

/-- C10 (amended): every record a successful Northmarq scan emits carries
exactly the date computed by `northmarq_published_from_url` from its own
normalized URL (never from card text — cards carry no date input at all);
a leftmost `-(\d{4})-(\d{2})(?:$|/)` match is a genuine in-string
decomposition; no match yields an absent date, and a match with a valid
month (01–12, year ≥ 1) yields the first day of that month (midnight
UTC). -/
theorem northmarq_publish_date_solely_from_url :
    (∀ pages limit out, get_northmarq_items pages limit = .ok out →
      ∀ r ∈ out, northmarq_published_from_url r.url = .ok r.published) ∧
    (∀ (l : List Char) (y m : Nat), nmScan l = some (y, m) →
      ∃ pre post, l = pre ++ post ∧ nmMatchHere post = some (y, m)) ∧
    (∀ url : String, nmScan url.data = none →
      northmarq_published_from_url url = .ok none) ∧
    (∀ (url : String) (y m : Nat), nmScan url.data = some (y, m) →
      1 ≤ y → 1 ≤ m → m ≤ 12 →
      northmarq_published_from_url url = .ok (some ⟨y, m, 1⟩)) := by
  refine ⟨?_, nmScan_sound, ?_, ?_⟩
  · intro pages limit out h r hr
    obtain ⟨byUrl, hP, hout⟩ := get_northmarq_items_invariant pages limit out h
      (fun b => ∀ x ∈ b, northmarq_published_from_url x.url = .ok x.published)
      (fun x hx => absurd hx (List.not_mem_nil x))
      (fun b full card published hp hb x hx => by
        rcases mem_nmInsert hx with h1 | rfl
        · exact hb x h1
        · unfold nmRecord
          simpa using hp)
    rw [hout] at hr
    exact hP r (mem_sortItems.mp (List.mem_of_mem_take hr))
  · intro url h
    unfold northmarq_published_from_url
    rw [h]
  · intro url y m h h1 h2 h3
    unfold northmarq_published_from_url
    rw [h]
    simp only []
    rw [if_pos ⟨h1, h2, h3⟩]

/-- Witness for C10's theorem at a concrete scan. -/
theorem northmarq_publish_date_solely_from_url_witness :
    northmarq_published_from_url
      "https://www.northmarq.com/transactions/alpha-2020-01" =
      .ok (some ⟨2020, 1, 1⟩) := by
  have h := northmarq_publish_date_solely_from_url.1
    [[⟨some "/transactions/alpha-2020-01", "Alpha", none, ""⟩]] 5
    [⟨"https://www.northmarq.com/transactions/alpha-2020-01", "Alpha", "",
      some ⟨2020, 1, 1⟩, "Northmarq"⟩] (by rfl)
    ⟨"https://www.northmarq.com/transactions/alpha-2020-01", "Alpha", "",
      some ⟨2020, 1, 1⟩, "Northmarq"⟩ (by decide)
  exact h

/-- C1 (counterexample): rediscovering a Colliers article whose record
already has a date does not keep the later of the two dates — the second
discovery's strictly later date (2025-06-02) is dropped and the original
(2024-01-01) survives. -/
theorem colliers_rediscovery_drops_later_date :
    get_colliers_items "https://www.colliers.com/en/news"
      [⟨"a", some "https://www.colliers.com/en/news/us/deal-one",
        "Big deal closes downtown", some ⟨2024, 1, 1⟩, ""⟩,
       ⟨"a", some "https://www.colliers.com/en/news/us/deal-one",
        "Big deal closes downtown", some ⟨2025, 6, 2⟩, ""⟩] 10 =
      [⟨"https://www.colliers.com/en/news/us/deal-one",
        "Big deal closes downtown", "", some ⟨2024, 1, 1⟩, "Colliers"⟩] ∧
    DateTime.blt ⟨2024, 1, 1⟩ ⟨2025, 6, 2⟩ = true :=
  ⟨rfl, by decide⟩

/-- C1 (amended): on rediscovery of a URL within one source, a date is
adopted only when the existing record has none; when the existing record
already has a date, that date is kept whatever the new discovery carries
(Colliers), and a rediscovered Northmarq URL leaves the stored record
untouched entirely. -/
theorem rediscovery_keeps_existing_date :
    (∀ (byUrl : List Item) (url title desc : String)
       (pub : Option DateTime) (e : Item),
      findItem byUrl url = some e →
      ∃ e', findItem (colliersUpsert byUrl url title desc pub) url = some e' ∧
        e'.published = (if e.published = none then pub else e.published)) ∧
    (∀ (limit : Nat) (cards : List NCard) (b out : List Item) (flag : Bool),
      nmProcessPage limit b cards = .ok (out, flag) →
      ∀ e ∈ b, e ∈ out) := by
  constructor
  · intro byUrl url title desc pub e hfind
    have hu : (colliersUpgrade e title desc pub).url = url := by
      rw [colliersUpgrade_url]
      exact findItem_some_url hfind
    refine ⟨colliersUpgrade e title desc pub, ?_, colliersUpgrade_published e title desc pub⟩
    unfold colliersUpsert
    rw [hfind]
    rw [findItem_replaceItem byUrl url _ hu, hfind]
    simp only [Option.map_some']
    rw [if_pos (findItem_some_url hfind)]
  · intro limit cards b out flag h e he
    exact nmProcessPage_invariant limit cards (fun m => ∀ x ∈ b, x ∈ m)
      (fun m full card published _ hm x hx => nmInsert_sub m full card published x (hm x hx))
      b out flag h (fun x hx => hx) e he

/-- Witness for C1's theorem: a stored record dated 2024-01-01 keeps that
date when the same URL is rediscovered with date 2025-06-02. -/
theorem rediscovery_keeps_existing_date_witness :
    ∃ e', findItem (colliersUpsert
        [⟨"U", "title", "", some ⟨2024, 1, 1⟩, "Colliers"⟩]
        "U" "title" "" (some ⟨2025, 6, 2⟩)) "U" = some e' ∧
      e'.published = (if (some ⟨2024, 1, 1⟩ : Option DateTime) = none
        then some ⟨2025, 6, 2⟩ else some ⟨2024, 1, 1⟩) :=
  rediscovery_keeps_existing_date.1
    [⟨"U", "title", "", some ⟨2024, 1, 1⟩, "Colliers"⟩]
    "U" "title" "" (some ⟨2025, 6, 2⟩)
    ⟨"U", "title", "", some ⟨2024, 1, 1⟩, "Colliers"⟩ (by rfl)

/-- C2 (counterexample): when the stored record lacks a date, the
cross-source merge replaces it *wholesale* by the dated record from the
other source: the non-empty description "A fine description." is cleared to
"" and the source label flips from Colliers to Northmarq. -/
theorem cross_merge_clears_description_and_source :
    merge_items
      [[⟨"U", "Long headline here", "A fine description.", none, "Colliers"⟩],
       [⟨"U", "X", "", some ⟨2024, 1, 1⟩, "Northmarq"⟩]] 10 =
      [⟨"U", "X", "", some ⟨2024, 1, 1⟩, "Northmarq"⟩] ∧
    ("A fine description." : String) ≠ "" ∧
    ("Colliers" : String) ≠ "Northmarq" :=
  ⟨rfl, by decide, by decide⟩

/-- C2 (amended): the cross-source merge never mixes fields — every merged
record is one of the input records verbatim; a stored record that already
has a date is left untouched by rediscoveries, and a stored record without
a date is replaced wholesale (title, description and source label included)
by a dated record for the same URL. -/
theorem cross_merge_replaces_wholesale :
    (∀ (lists : List (List Item)) (limit : Nat) (r : Item),
      r ∈ merge_items lists limit → r ∈ lists.flatten) ∧
    (∀ (byUrl : List Item) (it e : Item),
      findItem byUrl it.url = some e → e.published ≠ none →
      mergeStep byUrl it = byUrl) ∧
    (∀ (byUrl : List Item) (it e : Item),
      findItem byUrl it.url = some e → e.published = none →
      it.published ≠ none →
      mergeStep byUrl it = replaceItem byUrl it.url it) :=
  ⟨fun _ _ _ h => merge_items_subset h,
   mergeStep_dated_existing,
   mergeStep_undated_existing⟩

/-- Witness for C2's theorem at concrete records. -/
theorem cross_merge_replaces_wholesale_witness :
    (⟨"U", "X", "", some ⟨2024, 1, 1⟩, "Northmarq"⟩ : Item) ∈
      ([[⟨"U", "Long headline here", "A fine description.", none, "Colliers"⟩],
        [⟨"U", "X", "", some ⟨2024, 1, 1⟩, "Northmarq"⟩]] :
        List (List Item)).flatten ∧
    mergeStep [⟨"V", "t", "", some ⟨2020, 1, 1⟩, "Colliers"⟩]
        ⟨"V", "s", "", some ⟨2024, 1, 1⟩, "Northmarq"⟩ =
      [⟨"V", "t", "", some ⟨2020, 1, 1⟩, "Colliers"⟩] ∧
    mergeStep [⟨"W", "t", "d", none, "Colliers"⟩]
        ⟨"W", "s", "", some ⟨2024, 1, 1⟩, "Northmarq"⟩ =
      replaceItem [⟨"W", "t", "d", none, "Colliers"⟩] "W"
        ⟨"W", "s", "", some ⟨2024, 1, 1⟩, "Northmarq"⟩ :=
  ⟨cross_merge_replaces_wholesale.1
      [[⟨"U", "Long headline here", "A fine description.", none, "Colliers"⟩],
       [⟨"U", "X", "", some ⟨2024, 1, 1⟩, "Northmarq"⟩]] 10
      ⟨"U", "X", "", some ⟨2024, 1, 1⟩, "Northmarq"⟩ (by decide),
   cross_merge_replaces_wholesale.2.1
      [⟨"V", "t", "", some ⟨2020, 1, 1⟩, "Colliers"⟩]
      ⟨"V", "s", "", some ⟨2024, 1, 1⟩, "Northmarq"⟩
      ⟨"V", "t", "", some ⟨2020, 1, 1⟩, "Colliers"⟩ (by rfl) (by decide),
   cross_merge_replaces_wholesale.2.2
      [⟨"W", "t", "d", none, "Colliers"⟩]
      ⟨"W", "s", "", some ⟨2024, 1, 1⟩, "Northmarq"⟩
      ⟨"W", "t", "d", none, "Colliers"⟩ (by rfl) (by rfl) (by decide)⟩

/-- C3 (counterexample): the Northmarq scanner stops discovery as soon as
`limit` records are collected, so with limit 1 it returns the first
discovered card (dated 2020-01) even though a later card in the same page
is strictly more recent (2025-06). -/
theorem northmarq_stops_discovery_at_limit :
    get_northmarq_items
      [[⟨some "/transactions/alpha-2020-01", "Alpha", none, ""⟩,
        ⟨some "/transactions/beta-2025-06", "Beta", none, ""⟩]] 1 =
      .ok [⟨"https://www.northmarq.com/transactions/alpha-2020-01", "Alpha",
        "", some ⟨2020, 1, 1⟩, "Northmarq"⟩] ∧
    northmarq_published_from_url
      "https://www.northmarq.com/transactions/beta-2025-06" =
      .ok (some ⟨2025, 6, 1⟩) ∧
    DateTime.blt ⟨2020, 1, 1⟩ ⟨2025, 6, 1⟩ = true :=
  ⟨rfl, rfl, by decide⟩

/-- C3 (amended): the Colliers scanner does sort the full set of discovered
records before applying the limit: anything discovered that is strictly
more recent than some record of the truncated output is itself in the
output, so the output is the `limit` most recent discoveries.  (The
Northmarq scanner instead stops discovering once `limit` URLs are
collected — see the counterexample.) -/
theorem colliers_truncation_keeps_most_recent :
    ∀ (lst : String) (els : List CAnchor) (limit : Nat) (r r' : Item),
      r ∈ get_colliers_items lst els limit →
      r' ∈ colliersScan lst els →
      DateTime.blt (itemKey r) (itemKey r') = true →
      r' ∈ get_colliers_items lst els limit := by
  intro lst els limit r r' hr hr' hlt
  unfold get_colliers_items at hr ⊢
  exact sortItems_take_closure _ limit r r' hr hr' hlt

/-- Witness for C3's theorem: with limit 2 both records fit, and the newer
one is forced into the output by the older one's presence. -/
theorem colliers_truncation_keeps_most_recent_witness :
    (⟨"https://www.colliers.com/en/news/us/new-deal", "Newer story", "",
      some ⟨2025, 3, 4⟩, "Colliers"⟩ : Item) ∈
      get_colliers_items "https://www.colliers.com/en/news"
        [⟨"a", some "https://www.colliers.com/en/news/us/old-deal",
          "Older story", some ⟨2020, 3, 4⟩, ""⟩,
         ⟨"a", some "https://www.colliers.com/en/news/us/new-deal",
          "Newer story", some ⟨2025, 3, 4⟩, ""⟩] 2 :=
  colliers_truncation_keeps_most_recent "https://www.colliers.com/en/news"
    [⟨"a", some "https://www.colliers.com/en/news/us/old-deal",
      "Older story", some ⟨2020, 3, 4⟩, ""⟩,
     ⟨"a", some "https://www.colliers.com/en/news/us/new-deal",
      "Newer story", some ⟨2025, 3, 4⟩, ""⟩] 2
    ⟨"https://www.colliers.com/en/news/us/old-deal", "Older story", "",
      some ⟨2020, 3, 4⟩, "Colliers"⟩
    ⟨"https://www.colliers.com/en/news/us/new-deal", "Newer story", "",
      some ⟨2025, 3, 4⟩, "Colliers"⟩
    (by decide) (by decide) (by decide)

/-- C4 (counterexample): the Northmarq scanner performs no boilerplate
check: an anchor whose `aria-label` is exactly "Read More" produces a
record titled "Read More", which is on the (case-insensitive) boilerplate
list. -/
theorem northmarq_emits_boilerplate_title :
    get_northmarq_items
      [[⟨some "/transactions/deal-2024-01", "Read More", none, ""⟩]] 5 =
      .ok [⟨"https://www.northmarq.com/transactions/deal-2024-01",
        "Read More", "", some ⟨2024, 1, 1⟩, "Northmarq"⟩] ∧
    COLLIERS_SKIP_TEXT.contains (pyLower (pyStrip "Read More")) = true :=
  ⟨rfl, by decide⟩

/-- C4 (amended): the *Colliers* scanner excludes boilerplate-titled
anchors entirely — an anchor whose stripped, lowercased text is on the
skip list leaves the map untouched regardless of its href, and no record
of the Colliers output carries a boilerplate title.  (The Northmarq
scanner has no such check — see the counterexample.) -/
theorem colliers_excludes_boilerplate_titles :
    (∀ (lst : String) (els : List CAnchor) (limit : Nat) (r : Item),
      r ∈ get_colliers_items lst els limit →
      COLLIERS_SKIP_TEXT.contains (pyLower (pyStrip r.title)) = false) ∧
    (∀ (lst : String) (byUrl : List Item) (el : CAnchor),
      COLLIERS_SKIP_TEXT.contains (pyLower (pyStrip el.text)) = true →
      colliersStep lst byUrl el = byUrl) := by
  constructor
  · intro lst els limit r hr
    exact colliersScan_title lst els r (get_colliers_items_subset hr)
  · intro lst byUrl el h
    rcases colliersStep_eq lst byUrl el with he | ⟨href, _, _, _, h4⟩
    · exact he
    · rw [h4] at h; cases h

/-- Witness for C4's theorem at a concrete record and a concrete
boilerplate anchor. -/
theorem colliers_excludes_boilerplate_titles_witness :
    COLLIERS_SKIP_TEXT.contains (pyLower (pyStrip
      (⟨"https://www.colliers.com/en/news/us/new-deal", "Newer story", "",
        some ⟨2025, 3, 4⟩, "Colliers"⟩ : Item).title)) = false ∧
    colliersStep "https://www.colliers.com/en/news" []
      ⟨"a", some "https://www.colliers.com/en/news/us/x", "Read More",
        none, ""⟩ = [] :=
  ⟨colliers_excludes_boilerplate_titles.1 "https://www.colliers.com/en/news"
      [⟨"a", some "https://www.colliers.com/en/news/us/new-deal",
        "Newer story", some ⟨2025, 3, 4⟩, ""⟩] 5
      ⟨"https://www.colliers.com/en/news/us/new-deal", "Newer story", "",
        some ⟨2025, 3, 4⟩, "Colliers"⟩ (by decide),
   colliers_excludes_boilerplate_titles.2 "https://www.colliers.com/en/news"
      [] ⟨"a", some "https://www.colliers.com/en/news/us/x", "Read More",
        none, ""⟩ (by decide)⟩

/-- C5 (counterexample): an undated record is keyed at `EPOCH` (1970), so
it sorts *before* a record genuinely dated 1950 — undated records do not
sort after all dated ones. -/
theorem undated_record_precedes_pre_epoch_record :
    merge_items
      [[⟨"u1", "t1", "", none, "Colliers"⟩],
       [⟨"u2", "t2", "", some ⟨1950, 1, 1⟩, "Northmarq"⟩]] 10 =
      [⟨"u1", "t1", "", none, "Colliers"⟩,
       ⟨"u2", "t2", "", some ⟨1950, 1, 1⟩, "Northmarq"⟩] ∧
    (⟨"u1", "t1", "", none, "Colliers"⟩ : Item).published = none ∧
    DateTime.blt ⟨1950, 1, 1⟩ EPOCH = true :=
  ⟨rfl, rfl, by decide⟩

/-- C5 (amended): both the merged feed and the Colliers output are sorted
by `published or EPOCH` descending: at any two positions `i < j` the key at
`j` is `≤` the key at `i` — in particular a record with a strictly later
date always precedes one with an earlier date, and an undated record is
ordered exactly as if dated at the epoch (hence after everything dated
later than 1970-01-01, but not after records dated before the epoch). -/
theorem final_output_sorted_desc_with_epoch_key :
    (∀ (lists : List (List Item)) (limit : Nat)
       (i j : Fin (merge_items lists limit).length), (i : Nat) < (j : Nat) →
      DateTime.ble (itemKey ((merge_items lists limit).get j))
        (itemKey ((merge_items lists limit).get i)) = true) ∧
    (∀ (lst : String) (els : List CAnchor) (limit : Nat)
       (i j : Fin (get_colliers_items lst els limit).length),
      (i : Nat) < (j : Nat) →
      DateTime.ble (itemKey ((get_colliers_items lst els limit).get j))
        (itemKey ((get_colliers_items lst els limit).get i)) = true) := by
  constructor
  · intro lists limit i j hij
    have hp := sortItems_take_pairwise ((lists.flatten).foldl mergeStep []) limit
    rw [List.pairwise_iff_get] at hp
    exact hp i j hij
  · intro lst els limit i j hij
    have hp := sortItems_take_pairwise (colliersScan lst els) limit
    rw [List.pairwise_iff_get] at hp
    exact hp i j hij

/-- Witness for C5's theorem: in a concrete two-record merged feed the
second record's key is `≤` the first record's key. -/
theorem final_output_sorted_desc_with_epoch_key_witness :
    DateTime.ble
      (itemKey ((merge_items
        [[⟨"b", "tb", "", some ⟨2020, 1, 1⟩, "Colliers"⟩],
         [⟨"a", "ta", "", some ⟨2025, 1, 1⟩, "Northmarq"⟩]] 10).get
        ⟨1, by decide⟩))
      (itemKey ((merge_items
        [[⟨"b", "tb", "", some ⟨2020, 1, 1⟩, "Colliers"⟩],
         [⟨"a", "ta", "", some ⟨2025, 1, 1⟩, "Northmarq"⟩]] 10).get
        ⟨0, by decide⟩)) = true :=
  final_output_sorted_desc_with_epoch_key.1
    [[⟨"b", "tb", "", some ⟨2020, 1, 1⟩, "Colliers"⟩],
     [⟨"a", "ta", "", some ⟨2025, 1, 1⟩, "Northmarq"⟩]] 10
    ⟨0, by decide⟩ ⟨1, by decide⟩ (by decide)

/-- In a list whose mapped URLs have no duplicates, a URL that occurs
occurs exactly once: the filter by that URL has length 1. -/
theorem filter_count_one_of_nodup {l : List Item} {u : String}
    (hnd : (l.map (·.url)).Nodup) (hmem : u ∈ l.map (·.url)) :
    (l.filter (fun r => r.url = u)).length = 1 := by
  induction l with
  | nil => cases hmem
  | cons a t ih =>
    rw [List.map_cons, List.nodup_cons] at hnd
    rw [List.map_cons, List.mem_cons] at hmem
    rw [List.filter_cons]
    by_cases ha : a.url = u
    · rw [if_pos (by simpa using ha)]
      have hempty : t.filter (fun r => decide (r.url = u)) = [] := by
        rw [List.filter_eq_nil_iff]
        intro x hx
        simp only [decide_eq_true_eq]
        intro hxu
        exact hnd.1 (List.mem_map.mpr ⟨x, hx, by rw [hxu, ha]⟩)
      simp [hempty]
    · rw [if_neg (by simpa using ha)]
      apply ih hnd.2
      rcases hmem with h1 | h1
      · exact absurd h1.symm ha
      · exact h1

/-- Sorting and truncating preserve URL-nodup. -/
theorem nodup_map_url_take_sort (s : List Item) (limit : Nat)
    (h : (s.map (·.url)).Nodup) :
    (((sortItems s).take limit).map (·.url)).Nodup := by
  have hperm : ((sortItems s).map (·.url)).Perm (s.map (·.url)) :=
    (sortItems_perm s).map _
  have h2 : ((sortItems s).map (·.url)).Nodup := hperm.nodup_iff.mpr h
  exact List.Pairwise.sublist ((List.take_sublist _ _).map _) h2

/-- C8 (counterexample): with `limit = 1`, an anchor that passes every
filter (the older-dated article) ends up with *zero* records in the
output — the per-URL map has exactly one record for it, but truncation
drops it, so "exactly one record in the final output per accepted URL"
fails. -/
theorem limit_truncation_drops_accepted_url :
    get_colliers_items "https://www.colliers.com/en/news"
      [⟨"a", some "https://www.colliers.com/en/news/us/new-deal",
        "Newer story", some ⟨2025, 3, 4⟩, ""⟩,
       ⟨"a", some "https://www.colliers.com/en/news/us/old-deal",
        "Older story", some ⟨2020, 3, 4⟩, ""⟩] 1 =
      [⟨"https://www.colliers.com/en/news/us/new-deal", "Newer story", "",
        some ⟨2025, 3, 4⟩, "Colliers"⟩] ∧
    ((get_colliers_items "https://www.colliers.com/en/news"
      [⟨"a", some "https://www.colliers.com/en/news/us/new-deal",
        "Newer story", some ⟨2025, 3, 4⟩, ""⟩,
       ⟨"a", some "https://www.colliers.com/en/news/us/old-deal",
        "Older story", some ⟨2020, 3, 4⟩, ""⟩] 1).filter
      (fun r => r.url = "https://www.colliers.com/en/news/us/old-deal")).length
      = 0 ∧
    ((colliersScan "https://www.colliers.com/en/news"
      [⟨"a", some "https://www.colliers.com/en/news/us/new-deal",
        "Newer story", some ⟨2025, 3, 4⟩, ""⟩,
       ⟨"a", some "https://www.colliers.com/en/news/us/old-deal",
        "Older story", some ⟨2020, 3, 4⟩, ""⟩]).filter
      (fun r => r.url = "https://www.colliers.com/en/news/us/old-deal")).length
      = 1 :=
  ⟨rfl, by decide, by decide⟩

/-- C8 (amended): URL uniqueness holds *within the per-URL maps and hence
within every output list*: the Colliers output, any successful Northmarq
output, and the merged output each contain no two records with the same
normalized URL, and an accepted anchor has exactly one record in the
Colliers per-URL map.  But "exactly one record in the final output per
accepted URL" is only "at most one": truncation by `limit` can drop an
accepted URL entirely (see the counterexample). -/
theorem one_record_per_normalized_url :
    (∀ (lst : String) (els : List CAnchor) (limit : Nat),
      ((get_colliers_items lst els limit).map (·.url)).Nodup) ∧
    (∀ (pages : List (List NCard)) (limit : Nat) (out : List Item),
      get_northmarq_items pages limit = .ok out →
      (out.map (·.url)).Nodup) ∧
    (∀ (lists : List (List Item)) (limit : Nat),
      ((merge_items lists limit).map (·.url)).Nodup) ∧
    (∀ (lst : String) (els : List CAnchor) (el : CAnchor) (href : String),
      el ∈ els → el.name = "a" → el.href = some href → href ≠ "" →
      colliersArticleMatch (normalize_url lst href) = true →
      el.text ≠ "" →
      COLLIERS_SKIP_TEXT.contains (pyLower (pyStrip el.text)) = false →
      ((colliersScan lst els).filter
        (fun r => r.url = normalize_url lst href)).length = 1) := by
  refine ⟨?_, ?_, ?_, ?_⟩
  · intro lst els limit
    unfold get_colliers_items
    exact nodup_map_url_take_sort _ limit (colliersScan_nodup lst els)
  · intro pages limit out h
    obtain ⟨byUrl, hP, hout⟩ := get_northmarq_items_invariant pages limit out h
      (fun b => (b.map (·.url)).Nodup) (by simp)
      (fun b full_url card published _ hb =>
        nmInsert_nodup b full_url card published hb)
    rw [hout]
    exact nodup_map_url_take_sort _ limit hP
  · intro lists limit
    unfold merge_items
    exact nodup_map_url_take_sort _ limit (mergeFold_nodup _ _ (by simp))
  · intro lst els el href hel hn hh h1 h2 h3 h4
    exact filter_count_one_of_nodup (colliersScan_nodup lst els)
      (colliersScan_mem_url lst els el href hel hn hh h1 h2 h3 h4)

/-- Witness for C8's theorem: a concrete successful Northmarq run has
nodup URLs, and a concrete accepted anchor has exactly one record in the
scan map. -/
theorem one_record_per_normalized_url_witness :
    (([⟨"https://www.northmarq.com/transactions/deal-2024-01", "Read More",
        "", some ⟨2024, 1, 1⟩, "Northmarq"⟩] : List Item).map (·.url)).Nodup ∧
    ((colliersScan "https://www.colliers.com/en/news"
      [⟨"a", some "https://www.colliers.com/en/news/us/new-deal",
        "Newer story", some ⟨2025, 3, 4⟩, ""⟩]).filter
      (fun r => r.url = normalize_url "https://www.colliers.com/en/news"
        "https://www.colliers.com/en/news/us/new-deal")).length = 1 :=
  ⟨one_record_per_normalized_url.2.1
      [[⟨some "/transactions/deal-2024-01", "Read More", none, ""⟩]] 5
      [⟨"https://www.northmarq.com/transactions/deal-2024-01", "Read More",
        "", some ⟨2024, 1, 1⟩, "Northmarq"⟩] rfl,
   one_record_per_normalized_url.2.2.2 "https://www.colliers.com/en/news"
      [⟨"a", some "https://www.colliers.com/en/news/us/new-deal",
        "Newer story", some ⟨2025, 3, 4⟩, ""⟩]
      ⟨"a", some "https://www.colliers.com/en/news/us/new-deal",
        "Newer story", some ⟨2025, 3, 4⟩, ""⟩
      "https://www.colliers.com/en/news/us/new-deal"
      (by decide) rfl rfl (by decide) (by decide) (by decide) (by decide)⟩
